import Mathlib

/-!
# Verification of the code-quality teaching examples

Shallow embedding of the example functions in
`assets/conteudo/code-quality/main.py` and proofs of the properties the
specification states about them.

Modelling conventions:

* Python ints are `Int`; Python floats are modelled with finite values as
  exact rationals `ℚ` plus the signed infinities and nan where the builtin
  float conversion can produce them (the examples only exercise values on
  which float arithmetic is exact).
* Python functions with unbounded recursion (`fibonacci_of` in both the
  naive and the memoized version) are embedded with an explicit fuel
  parameter returning `Option`; `none` models a computation that has not
  finished within the given call depth, so termination statements say that
  some fuel makes the result `some`.
* The module-level dictionary `cache` of the memoized example is threaded
  through the embedded function as explicit state, represented as an
  association list `List (Int × Int)`; the memoized function only stores a
  key it has just found absent, so consing the new pair models the Python
  dictionary assignment.
* Raised exceptions are modelled with `Except`; a caught exception that
  leads to a print plus an implicit `return None` is modelled by returning
  the printed lines next to an `Option` result.
-/

namespace Functionality

/-- Model of a Python float: an exact rational for the finite values the
examples exercise, plus the two signed infinities and nan that the builtin
float can produce from strings such as "inf" and "nan". Finite values are
idealised as exact rationals rather than rounded IEEE doubles. -/
inductive PyFloat where
  | finite : ℚ → PyFloat
  | inf : Bool → PyFloat
  | nan : PyFloat
deriving DecidableEq

/-- Python float addition on the modelled values. -/
def PyFloat.add : PyFloat → PyFloat → PyFloat
  | .nan, _ => .nan
  | _, .nan => .nan
  | .inf s, .inf t => if s = t then .inf s else .nan
  | .inf s, .finite _ => .inf s
  | .finite _, .inf t => .inf t
  | .finite a, .finite b => .finite (a + b)

/-- Values the higher-quality add_numbers is exercised with: Python ints,
floats and strings. -/
inductive PyVal where
  | int : Int → PyVal
  | float : PyFloat → PyVal
  | str : String → PyVal
deriving DecidableEq

/-- Whitespace characters the builtin float strips from a string argument,
which on the ASCII range are the space and the five control characters
from tab to carriage return. -/
def isPySpace (c : Char) : Bool :=
  c = ' ' || (9 ≤ c.toNat && c.toNat ≤ 13)

/-- Strip leading and trailing whitespace. -/
def stripChars (cs : List Char) : List Char :=
  ((cs.dropWhile isPySpace).reverse.dropWhile isPySpace).reverse

/-- Tail of a digit group: digits, with single underscores allowed between
digits only, as PEP 515 specifies for the float literal grammar. -/
def digitPartTail : List Char → Bool
  | [] => true
  | ['_'] => false
  | '_' :: c :: rest => c.isDigit && digitPartTail rest
  | c :: rest => c.isDigit && digitPartTail rest

/-- A nonempty digit group: a digit followed by digits with underscores
between digits only. -/
def digitPartOK : List Char → Bool
  | [] => false
  | c :: rest => c.isDigit && digitPartTail rest

/-- Numeric value of a digit group, ignoring the grouping underscores. -/
def digitsVal (cs : List Char) : Nat :=
  (cs.filter (fun c => c != '_')).foldl (fun a c => a * 10 + (c.toNat - 48)) 0

/-- Digit group parsed to its value. -/
def parseDigitPart (cs : List Char) : Option Nat :=
  if digitPartOK cs then some (digitsVal cs) else none

/-- Mantissa of a float literal: digit groups around an optional decimal
point, at least one of the two parts present. Returns the integer part
value, the fractional part value and the fractional digit count. -/
def parseMantissa (cs : List Char) : Option (Nat × Nat × Nat) :=
  let ip := cs.takeWhile (fun c => c != '.')
  let rest := cs.dropWhile (fun c => c != '.')
  match rest with
  | [] => (parseDigitPart ip).map (fun v => (v, 0, 0))
  | _ :: fp =>
    if fp.contains '.' then none
    else
      match ip, fp with
      | [], [] => none
      | [], _ => (parseDigitPart fp).map
          (fun w => (0, w, (fp.filter (fun c => c != '_')).length))
      | _, [] => (parseDigitPart ip).map (fun v => (v, 0, 0))
      | _, _ =>
        match parseDigitPart ip, parseDigitPart fp with
        | some v, some w => some (v, w, (fp.filter (fun c => c != '_')).length)
        | _, _ => none

/-- Exponent of a float literal: an optional sign and a digit group. -/
def parseExpPart (cs : List Char) : Option Int :=
  match cs with
  | '+' :: ds => (parseDigitPart ds).map (fun v => (v : Int))
  | '-' :: ds => (parseDigitPart ds).map (fun v => -(v : Int))
  | ds => (parseDigitPart ds).map (fun v => (v : Int))

/-- Parsed shape of a float string: a finite literal as sign, integer part
value, fractional part value, fractional digit count and exponent, or an
infinity with its sign, or nan. -/
inductive ParsedFloat where
  | finite : Bool → Nat → Nat → Nat → Int → ParsedFloat
  | inf : Bool → ParsedFloat
  | nan : ParsedFloat
deriving DecidableEq

/-- Body of a float string after stripping and sign handling, already
lowercased: the words inf, infinity and nan, or a mantissa with an
optional exponent introduced by the letter e. -/
def parseUnsigned (sgn : Bool) (cs : List Char) : Option ParsedFloat :=
  if cs = ['i', 'n', 'f'] ∨ cs = ['i', 'n', 'f', 'i', 'n', 'i', 't', 'y'] then
    some (.inf sgn)
  else if cs = ['n', 'a', 'n'] then some .nan
  else
    let mant := cs.takeWhile (fun c => c != 'e')
    let rest := cs.dropWhile (fun c => c != 'e')
    match rest with
    | [] => (parseMantissa mant).map (fun t => .finite sgn t.1 t.2.1 t.2.2 0)
    | _ :: ex =>
      match parseMantissa mant, parseExpPart ex with
      | some t, some e => some (.finite sgn t.1 t.2.1 t.2.2 e)
      | _, _ => none

/-- Model of the string grammar the Python builtin float accepts,
restricted to the ASCII range (CPython additionally accepts non-ASCII
decimal digits and non-ASCII whitespace): optional whitespace and sign
around a case-insensitive inf, infinity or nan, or a decimal literal with
an optional fractional part, PEP 515 underscores and an optional
exponent. -/
def parseFloatString (s : String) : Option ParsedFloat :=
  match (stripChars s.toList).map Char.toLower with
  | '+' :: rest => parseUnsigned false rest
  | '-' :: rest => parseUnsigned true rest
  | rest => parseUnsigned false rest

/-- Value of a parsed float string, with finite values idealised as exact
rationals. -/
def ratOfParsed : ParsedFloat → PyFloat
  | .finite sgn ip fp k e =>
    .finite ((if sgn then (-1 : ℚ) else 1) * (((ip : ℚ) + (fp : ℚ) / 10 ^ k) * 10 ^ e))
  | .inf sgn => .inf sgn
  | .nan => .nan

/-- Model of the Python builtin float applied to a string. -/
def floatOfString (s : String) : Option PyFloat :=
  (parseFloatString s).map ratOfParsed

/-- Model of the Python builtin float conversion: exact on numbers, parses
strings, raises ValueError on a string it cannot parse. -/
def pyFloat : PyVal → Except String PyFloat
  | .int n => .ok (.finite (n : ℚ))
  | .float f => .ok f
  | .str s =>
    match floatOfString s with
    | some f => .ok f
    | none => .error "ValueError"

/-- Higher-quality add_numbers from the Functionality section:
a, b = float(a), float(b); return a + b. -/
def add_numbers (a b : PyVal) : Except String PyFloat :=
  match pyFloat a with
  | .error e => .error e
  | .ok x =>
    match pyFloat b with
    | .error e => .error e
    | .ok y => .ok (x.add y)

end Functionality

namespace Reusability

/-- Higher-quality `greet` from the Reusability section:
`return f"Hello {name}!"`. -/
def greet (name : String) : String :=
  "Hello " ++ name ++ "!"

end Reusability

namespace Maintainability

/-- Low-quality `process` from the Maintainability section: filter out the
negative numbers, then return the sum of what is left. -/
def process (numbers : List Int) : Int :=
  let cleaned := numbers.filter (fun number => decide (0 ≤ number))
  cleaned.sum

/-- Higher-quality `clean_data`: the list comprehension
`[number for number in numbers if number >= 0]`. -/
def clean_data (numbers : List Int) : List Int :=
  numbers.filter (fun number => decide (0 ≤ number))

/-- Higher-quality `calculate_total`: `return sum(numbers)`. -/
def calculate_total (numbers : List Int) : Int :=
  numbers.sum

end Maintainability

namespace Robustness

/-- Model of the Python division `a / b`, which raises `ZeroDivisionError`
when the divisor is zero. -/
def pyDiv (a b : ℚ) : Except String ℚ :=
  if b = 0 then .error "ZeroDivisionError" else .ok (a / b)

/-- Higher-quality `divide_numbers`: `try: return a / b` with an
`except ZeroDivisionError` that prints an error message and falls through
to the implicit `return None`. The result is the returned optional value
together with the lines printed during the call. -/
def divide_numbers (a b : ℚ) : Option ℚ × List String :=
  match pyDiv a b with
  | .ok v => (some v, [])
  | .error _ => (none, ["Error: can´t divide by zero"])

end Robustness

namespace Testability

/-- Higher-quality `greet` from the Testability section:
`return f"Hello, {name}!"`. -/
def greet (name : String) : String :=
  "Hello, " ++ name ++ "!"

/-- The illustrated unit test: `assert greet("Alice") == "Hello, Alice!"`. -/
def test_greet : Prop :=
  greet "Alice" = "Hello, Alice!"

end Testability

namespace Efficiency

/-- State of the module-level dictionary of the memoized example, as an
association list from argument to stored result. -/
abbrev Cache := List (Int × Int)

/-- Lookup in the dictionary: first binding of the key wins. -/
def dictLookup (k : Int) : Cache → Option Int
  | [] => none
  | p :: ps => if k = p.1 then some p.2 else dictLookup k ps

namespace Naive

/-- Low-quality recursive `fibonacci_of`, with fuel bounding the call
depth: `if n in {0, 1}: return n` and otherwise
`return fibonacci_of(n - 1) + fibonacci_of(n - 2)`. -/
def fibonacci_of : Nat → Int → Option Int
  | 0, _ => none
  | fuel + 1, n =>
    if n = 0 ∨ n = 1 then some n
    else
      match fibonacci_of fuel (n - 1) with
      | none => none
      | some a =>
        match fibonacci_of fuel (n - 2) with
        | none => none
        | some b => some (a + b)

end Naive

namespace Memo

/-- Initial value of the module-level dictionary: `cache = {0: 0, 1: 1}`. -/
def cache : Cache := [(0, 0), (1, 1)]

/-- Higher-quality memoized `fibonacci_of`, with the dictionary threaded as
explicit state and fuel bounding the call depth: if `n` is in the cache,
return the stored value directly; otherwise compute
`fibonacci_of(n - 1) + fibonacci_of(n - 2)`, store it under `n` and return
it. -/
def fibonacci_of : Nat → Int → Cache → Option (Int × Cache)
  | 0, _, _ => none
  | fuel + 1, n, c =>
    match dictLookup n c with
    | some v => some (v, c)
    | none =>
      match fibonacci_of fuel (n - 1) c with
      | none => none
      | some (v1, c1) =>
        match fibonacci_of fuel (n - 2) c1 with
        | none => none
        | some (v2, c2) => some (v1 + v2, (n, v1 + v2) :: c2)

end Memo

/-- Invariant of the memoized cache: every stored binding maps a
non-negative key `k` to the `k`-th Fibonacci number. -/
def CacheOK (c : Cache) : Prop :=
  ∀ p ∈ c, 0 ≤ p.1 ∧ p.2 = (Nat.fib p.1.toNat : Int)

instance (c : Cache) : Decidable (CacheOK c) := by
  unfold CacheOK
  infer_instance

end Efficiency

namespace Efficiency

lemma lookup_mem {k v : Int} : ∀ {c : Cache}, dictLookup k c = some v → (k, v) ∈ c := by
  intro c
  induction c with
  | nil => intro h; simp [dictLookup] at h
  | cons p ps ih =>
    intro h
    simp only [dictLookup] at h
    by_cases hk : k = p.1
    · simp [hk] at h
      subst hk
      simp [← h]
    · simp [hk] at h
      exact List.mem_cons_of_mem _ (ih h)

lemma lookup_none_of_neg {k : Int} {c : Cache} (hck : CacheOK c) (hk : k < 0) :
    dictLookup k c = none := by
  cases h : dictLookup k c with
  | none => rfl
  | some v =>
    have hmem := lookup_mem h
    have := (hck _ hmem).1
    omega

lemma memo_none_of_neg : ∀ (fuel : Nat) (n : Int) (c : Cache), CacheOK c → n < 0 →
    Memo.fibonacci_of fuel n c = none := by
  intro fuel
  induction fuel with
  | zero => intro n c _ _; rfl
  | succ f ih =>
    intro n c hck hn
    simp only [Memo.fibonacci_of, lookup_none_of_neg hck hn]
    rw [ih (n - 1) c hck (by omega)]

lemma memo_sound : ∀ (fuel : Nat) (n : Int) (c : Cache) (v : Int) (c' : Cache),
    CacheOK c → Memo.fibonacci_of fuel n c = some (v, c') →
    CacheOK c' ∧ 0 ≤ n ∧ v = (Nat.fib n.toNat : Int) ∧
      (∀ k w, dictLookup k c = some w → dictLookup k c' = some w) := by
  intro fuel
  induction fuel with
  | zero => intro n c v c' _ h; simp [Memo.fibonacci_of] at h
  | succ f ih =>
    intro n c v c' hck h
    simp only [Memo.fibonacci_of] at h
    cases hl : dictLookup n c with
    | some u =>
      simp only [hl] at h
      simp at h
      obtain ⟨hv, hc⟩ := h
      have hmem := lookup_mem hl
      have hp := hck _ hmem
      subst hc
      exact ⟨hck, hp.1, by rw [← hv]; exact hp.2, fun k w hw => hw⟩
    | none =>
      simp only [hl] at h
      cases h1 : Memo.fibonacci_of f (n - 1) c with
      | none => simp only [h1] at h; exact Option.noConfusion h
      | some r1 =>
        obtain ⟨v1, c1⟩ := r1
        simp only [h1] at h
        obtain ⟨hck1, hn1, hv1, pres1⟩ := ih (n - 1) c v1 c1 hck h1
        cases h2 : Memo.fibonacci_of f (n - 2) c1 with
        | none => simp only [h2] at h; exact Option.noConfusion h
        | some r2 =>
          obtain ⟨v2, c2⟩ := r2
          simp only [h2] at h
          obtain ⟨hck2, hn2, hv2, pres2⟩ := ih (n - 2) c1 v2 c2 hck1 h2
          simp at h
          obtain ⟨hv, hc⟩ := h
          obtain ⟨m, hm⟩ : ∃ m : Nat, n = (m : Int) + 2 := ⟨(n - 2).toNat, by omega⟩
          have ht1 : (n - 1).toNat = m + 1 := by omega
          have ht2 : (n - 2).toNat = m := by omega
          have ht0 : n.toNat = m + 2 := by omega
          have hfib : v1 + v2 = (Nat.fib n.toNat : Int) := by
            rw [hv1, hv2, ht1, ht2, ht0, Nat.fib_add_two]
            push_cast
            ring
          refine ⟨?_, by omega, by rw [← hv]; exact hfib, ?_⟩
          · rw [← hc]
            intro p hp
            rcases List.mem_cons.mp hp with hp | hp
            · subst hp
              exact ⟨by omega, by simpa using hfib⟩
            · exact hck2 _ hp
          · intro k w hw
            rw [← hc]
            simp only [dictLookup]
            by_cases hkn : k = n
            · rw [hkn] at hw
              rw [hl] at hw
              exact absurd hw (by simp)
            · simp only [hkn, if_false]
              exact pres2 k w (pres1 k w hw)

lemma fib_cast_step (m : Nat) :
    (Nat.fib (m + 1) : Int) + (Nat.fib m : Int) = (Nat.fib (m + 2) : Int) := by
  rw [Nat.fib_add_two]
  push_cast
  ring

lemma memo_total : ∀ (fuel : Nat) (n : Nat) (c : Cache), CacheOK c →
    dictLookup 0 c = some 0 → dictLookup 1 c = some 1 → n + 1 ≤ fuel →
    ∃ c', Memo.fibonacci_of fuel (n : Int) c = some ((Nat.fib n : Int), c') := by
  intro fuel
  induction fuel with
  | zero => intro n c _ _ _ hf; omega
  | succ f ih =>
    intro n c hck h0 h1 hf
    cases hl : dictLookup (n : Int) c with
    | some u =>
      refine ⟨c, ?_⟩
      have hp := hck _ (lookup_mem hl)
      have hu : u = (Nat.fib n : Int) := by simpa using hp.2
      simp only [Memo.fibonacci_of, hl, hu]
    | none =>
      have hn0 : n ≠ 0 := by
        rintro rfl
        rw [Nat.cast_zero, h0] at hl
        exact Option.noConfusion hl
      have hn1 : n ≠ 1 := by
        rintro rfl
        rw [Nat.cast_one, h1] at hl
        exact Option.noConfusion hl
      obtain ⟨m, rfl⟩ : ∃ m, n = m + 2 := ⟨n - 2, by omega⟩
      have e1cast : ((m + 2 : Nat) : Int) - 1 = ((m + 1 : Nat) : Int) := by push_cast; ring
      have e2cast : ((m + 2 : Nat) : Int) - 2 = ((m : Nat) : Int) := by push_cast; ring
      obtain ⟨c1, e1⟩ := ih (m + 1) c hck h0 h1 (by omega)
      obtain ⟨hck1, -, -, pres1⟩ := memo_sound f _ c _ c1 hck e1
      obtain ⟨c2, e2⟩ := ih m c1 hck1 (pres1 0 0 h0) (pres1 1 1 h1) (by omega)
      refine ⟨(((m + 2 : Nat) : Int), (Nat.fib (m + 2) : Int)) :: c2, ?_⟩
      simp only [Memo.fibonacci_of, hl]
      rw [e1cast]
      simp only [e1]
      rw [e2cast]
      simp only [e2]
      rw [fib_cast_step m]

lemma naive_correct : ∀ (fuel : Nat) (n : Nat), n + 1 ≤ fuel →
    Naive.fibonacci_of fuel (n : Int) = some (Nat.fib n : Int) := by
  intro fuel
  induction fuel with
  | zero => intro n hf; omega
  | succ f ih =>
    intro n hf
    obtain rfl | rfl | ⟨m, rfl⟩ : n = 0 ∨ n = 1 ∨ ∃ m, n = m + 2 := by
      rcases n with _ | (_ | m)
      · exact Or.inl rfl
      · exact Or.inr (Or.inl rfl)
      · exact Or.inr (Or.inr ⟨m, rfl⟩)
    · simp [Naive.fibonacci_of]
    · simp [Naive.fibonacci_of]
    · have hcond : ¬(((m + 2 : Nat) : Int) = 0 ∨ ((m + 2 : Nat) : Int) = 1) := by
        push_cast
        omega
      have e1cast : ((m + 2 : Nat) : Int) - 1 = ((m + 1 : Nat) : Int) := by push_cast; ring
      have e2cast : ((m + 2 : Nat) : Int) - 2 = ((m : Nat) : Int) := by push_cast; ring
      simp only [Naive.fibonacci_of, if_neg hcond]
      rw [e1cast]
      simp only [ih (m + 1) (by omega)]
      rw [e2cast]
      simp only [ih m (by omega)]
      rw [fib_cast_step m]

end Efficiency

/-- C1: for every non-negative integer n, the memoized fibonacci_of
(using the module-level cache initialised to the dictionary mapping 0 to 0
and 1 to 1) returns the same value as the naive recursive fibonacci_of,
and both compute the n-th Fibonacci number. -/
theorem memo_fibonacci_equals_naive :
    ∀ n : Nat,
      Efficiency.Naive.fibonacci_of (n + 1) (n : Int) = some ((Nat.fib n : Int)) ∧
      (Efficiency.Memo.fibonacci_of (n + 1) (n : Int) Efficiency.Memo.cache).map Prod.fst =
        some ((Nat.fib n : Int)) := by
  intro n
  constructor
  · exact Efficiency.naive_correct (n + 1) n (le_refl _)
  · obtain ⟨c', hc'⟩ := Efficiency.memo_total (n + 1) n Efficiency.Memo.cache
      (by decide) (by decide) (by decide) (le_refl _)
    rw [hc']
    rfl

/-- C2: the higher-quality divide_numbers catches the division-by-zero
condition and reports it instead of terminating: for every a and every
nonzero b it returns a / b with nothing printed and no exception raised,
and for b = 0 it raises nothing to the caller, prints the error message
and returns None. -/
theorem divide_numbers_handles_zero :
    ∀ a b : ℚ,
      (b ≠ 0 → Robustness.divide_numbers a b = (some (a / b), [])) ∧
      Robustness.divide_numbers a 0 = (none, ["Error: can´t divide by zero"]) := by
  intro a b
  constructor
  · intro hb
    simp [Robustness.divide_numbers, Robustness.pyDiv, hb]
  · simp [Robustness.divide_numbers, Robustness.pyDiv]

/-- Witness for C2 at the demonstrated inputs 4 / 2 and 4 / 0. -/
theorem divide_numbers_handles_zero_witness :
    Robustness.divide_numbers 4 2 = (some 2, []) ∧
    Robustness.divide_numbers 4 0 = (none, ["Error: can´t divide by zero"]) := by
  constructor
  · have h := (divide_numbers_handles_zero 4 2).1 (by norm_num)
    rw [h]
    norm_num
  · exact (divide_numbers_handles_zero 4 0).2

/-- C3: the memoized fibonacci_of first looks its argument up in the cache
and returns the stored value with the cache unchanged when present; every
call preserves the invariant that each cache entry stores the Fibonacci
number of its key, and the initial cache satisfies that invariant. -/
theorem memo_preserves_cache_invariant :
    Efficiency.CacheOK Efficiency.Memo.cache ∧
    (∀ (fuel : Nat) (n v : Int) (c : Efficiency.Cache),
      Efficiency.dictLookup n c = some v →
      Efficiency.Memo.fibonacci_of (fuel + 1) n c = some (v, c)) ∧
    (∀ (fuel : Nat) (n v : Int) (c c' : Efficiency.Cache),
      Efficiency.CacheOK c →
      Efficiency.Memo.fibonacci_of fuel n c = some (v, c') →
      Efficiency.CacheOK c') := by
  refine ⟨by decide, ?_, ?_⟩
  · intro fuel n v c hl
    simp [Efficiency.Memo.fibonacci_of, hl]
  · intro fuel n v c c' hck h
    exact (Efficiency.memo_sound fuel n c v c' hck h).1

/-- Witness for C3: the cache produced by the call on argument 2 from the
initial cache still satisfies the invariant. -/
theorem memo_preserves_cache_invariant_witness :
    Efficiency.CacheOK [(2, 1), (0, 0), (1, 1)] :=
  memo_preserves_cache_invariant.2.2 3 2 1 Efficiency.Memo.cache [(2, 1), (0, 0), (1, 1)]
    (by decide) (by decide)

/-- C4 counterexample: an invocation of the memoized fibonacci_of does
change state outside its own locals: the call on argument 2 returns with a
module-level cache different from the one it started from, refuting the
claim that no example function shares mutable state across invocations. -/
theorem memo_mutates_shared_cache :
    Efficiency.Memo.fibonacci_of 3 2 Efficiency.Memo.cache =
      some (1, [(2, 1), (0, 0), (1, 1)]) ∧
    decide (([(2, 1), (0, 0), (1, 1)] : Efficiency.Cache) = Efficiency.Memo.cache) = false := by
  constructor
  · decide
  · decide

/-- C4 amended: the memoized fibonacci_of mutates the shared module-level
cache, but no invocation result depends on that mutation: from any cache
satisfying the invariant and containing the entries for 0 and 1 (so, from
the initial cache and from any cache earlier invocations produce), the
call returns exactly the n-th Fibonacci number. -/
theorem memo_result_independent_of_cache :
    ∀ (n : Nat) (c : Efficiency.Cache),
      Efficiency.CacheOK c →
      Efficiency.dictLookup 0 c = some 0 →
      Efficiency.dictLookup 1 c = some 1 →
      (Efficiency.Memo.fibonacci_of (n + 1) (n : Int) c).map Prod.fst =
        some ((Nat.fib n : Int)) := by
  intro n c hck h0 h1
  obtain ⟨c', hc'⟩ := Efficiency.memo_total (n + 1) n c hck h0 h1 (le_refl _)
  rw [hc']
  rfl

/-- Witness for the amended C4: from a mutated cache the call on 5 still
returns the fifth Fibonacci number. -/
theorem memo_result_independent_of_cache_witness :
    (Efficiency.Memo.fibonacci_of 6 (5 : Int) [(2, 1), (0, 0), (1, 1)]).map Prod.fst =
      some (5 : Int) := by
  have h := memo_result_independent_of_cache 5 [(2, 1), (0, 0), (1, 1)]
    (by decide) (by decide) (by decide)
  have h5 : ((Nat.fib 5 : Nat) : Int) = 5 := by decide
  rw [h5] at h
  exact h

/-- C5: the testability-section higher-quality greet satisfies its
illustrated unit test: greet("Alice") returns exactly "Hello, Alice!". -/
theorem testability_greet_passes_test : Testability.test_greet := by
  unfold Testability.test_greet Testability.greet
  rfl

/-- C6: both the naive recursive fibonacci_of and the memoized
fibonacci_of terminate with a result for every non-negative integer n;
call depth n + 1 already suffices for both. -/
theorem fibonacci_terminates :
    ∀ n : Nat,
      (Efficiency.Naive.fibonacci_of (n + 1) (n : Int)).isSome = true ∧
      (Efficiency.Memo.fibonacci_of (n + 1) (n : Int) Efficiency.Memo.cache).isSome = true := by
  intro n
  constructor
  · rw [Efficiency.naive_correct (n + 1) n (le_refl _)]
    rfl
  · obtain ⟨c', hc'⟩ := Efficiency.memo_total (n + 1) n Efficiency.Memo.cache
      (by decide) (by decide) (by decide) (le_refl _)
    rw [hc']
    rfl

/-- C7: the maintainability refactoring preserves behaviour: process
equals calculate_total composed with clean_data; clean_data returns
exactly the non-negative elements of its input in their original order,
and calculate_total returns their sum. -/
theorem process_equals_refactored :
    ∀ numbers : List Int,
      Maintainability.process numbers =
        Maintainability.calculate_total (Maintainability.clean_data numbers) ∧
      List.Sublist (Maintainability.clean_data numbers) numbers ∧
      (∀ x ∈ Maintainability.clean_data numbers, 0 ≤ x) ∧
      (∀ x ∈ numbers, 0 ≤ x → x ∈ Maintainability.clean_data numbers) ∧
      Maintainability.calculate_total numbers = numbers.sum := by
  intro numbers
  refine ⟨rfl, List.filter_sublist _, ?_, ?_, rfl⟩
  · intro x hx
    have := List.of_mem_filter hx
    simpa using this
  · intro x hx h0
    exact List.mem_filter.mpr ⟨hx, by simpa using h0⟩

/-- Witness for C7 at the demonstrated input list. -/
theorem process_equals_refactored_witness :
    Maintainability.process [1, 2, 3, -1, -2, -3] = 6 ∧
    Maintainability.process [1, 2, 3, -1, -2, -3] =
      Maintainability.calculate_total (Maintainability.clean_data [1, 2, 3, -1, -2, -3]) :=
  ⟨by decide, (process_equals_refactored [1, 2, 3, -1, -2, -3]).1⟩

/-- C8: the higher-quality add_numbers returns float(a) + float(b)
whenever both arguments convert, so add_numbers(2, "3") returns 5.0 and
add_numbers(2, "3.5") returns 5.5; a ValueError raised while converting an
argument string that float() cannot parse propagates out of the call, so
the demonstration call add_numbers(2, "a") raises instead of returning. -/
theorem add_numbers_converts_or_raises :
    (∀ a b x y, Functionality.pyFloat a = .ok x → Functionality.pyFloat b = .ok y →
      Functionality.add_numbers a b = .ok (x.add y)) ∧
    Functionality.add_numbers (.int 2) (.str "3") = .ok (.finite 5) ∧
    Functionality.add_numbers (.int 2) (.str "3.5") = .ok (.finite (11 / 2)) ∧
    Functionality.add_numbers (.int 2) (.str "a") = .error "ValueError" ∧
    (∀ a b, Functionality.pyFloat a = .error "ValueError" →
      Functionality.add_numbers a b = .error "ValueError") ∧
    (∀ a x b, Functionality.pyFloat a = .ok x →
      Functionality.pyFloat b = .error "ValueError" →
      Functionality.add_numbers a b = .error "ValueError") := by
  refine ⟨?_, ?_, ?_, ?_, ?_, ?_⟩
  · intro a b x y ha hb
    simp [Functionality.add_numbers, ha, hb]
  · have hp : Functionality.parseFloatString "3" = some (.finite false 3 0 0 0) := by decide
    simp [Functionality.add_numbers, Functionality.pyFloat, Functionality.floatOfString, hp,
      Functionality.ratOfParsed, Functionality.PyFloat.add]
    norm_num
  · have hp : Functionality.parseFloatString "3.5" = some (.finite false 3 5 1 0) := by decide
    simp [Functionality.add_numbers, Functionality.pyFloat, Functionality.floatOfString, hp,
      Functionality.ratOfParsed, Functionality.PyFloat.add]
    norm_num
  · have hp : Functionality.parseFloatString "a" = none := by decide
    simp [Functionality.add_numbers, Functionality.pyFloat, Functionality.floatOfString, hp]
  · intro a b ha
    simp [Functionality.add_numbers, ha]
  · intro a x b ha hb
    simp [Functionality.add_numbers, ha, hb]

/-- Witness for C8 on two plain integer arguments. -/
theorem add_numbers_converts_or_raises_witness :
    Functionality.add_numbers (.int 2) (.int 3) = .ok (.finite 5) := by
  have h := add_numbers_converts_or_raises.1 (.int 2) (.int 3) (.finite 2) (.finite 3)
    (by norm_num [Functionality.pyFloat]) (by norm_num [Functionality.pyFloat])
  have h2 : (Functionality.PyFloat.finite 2).add (.finite 3) = .finite 5 := by
    norm_num [Functionality.PyFloat.add]
  rw [h2] at h
  exact h

/-- C9: the reusability-section greet returns "Hello {name}!" with no
comma after Hello, so greet("Alice") returns "Hello Alice!", and its
result differs for every name from the testability-section greet. -/
theorem reusability_greet_no_comma :
    Reusability.greet "Alice" = "Hello Alice!" ∧
    ∀ name : String, Reusability.greet name ≠ Testability.greet name := by
  constructor
  · rfl
  · intro name h
    have hlen := congrArg String.length h
    have h6 : ("Hello " : String).length = 6 := rfl
    have h7 : ("Hello, " : String).length = 7 := rfl
    have h1 : ("!" : String).length = 1 := rfl
    simp only [Reusability.greet, Testability.greet, String.length_append, h6, h7, h1] at hlen
    omega

/-- Witness for C9 at a concrete name. -/
theorem reusability_greet_no_comma_witness :
    Reusability.greet "Bob" ≠ Testability.greet "Bob" :=
  reusability_greet_no_comma.2 "Bob"
